import Mathlib

/-!
Verification development for the scheduling core: the time value types
(`SimTime`, `SimDuration`, `WallTime`, `TimeDuration`), the real-time
simulation clock (`RealTimeSimClock`), and the scheduler actor's heap
operations (drain and cancel).

Modelling conventions:
* All time values are integer microsecond offsets, the resolution the
  module documents.  `SimTime` wraps a Rust `u64` (`Nat` with explicit
  `% 2 ^ 64` where the code performs `u64` arithmetic or casts);
  `WallTime` (a `chrono::NaiveDateTime`) and the two duration wrappers
  around `chrono::Duration` are signed (`Int`) microsecond counts.
* The `f64` time-dilation factor is modelled as a rational number;
  `f64::floor` is `ratFloor`, and the Rust `as i64` float cast is the
  saturating truncation `i64sat (ratTrunc q)`.
* Rust panics (`expect`/`unwrap` on `chrono::Duration::num_microseconds`,
  which is `None` when the microsecond count overflows `i64`) are
  modelled by `Option`.
* Every call to `WallTime::now()` in the source becomes an explicit
  `rt_now : WallTime` argument, so a theorem can quantify over the wall
  instants at which the clock is read.  The two back-to-back
  `WallTime::now()` reads inside `resume` happen within one operation
  and are modelled as the same instant.
-/

/-- Smallest `i64` value. -/
def i64min : Int := -(2 ^ 63)

/-- Largest `i64` value. -/
def i64max : Int := 2 ^ 63 - 1

/-- Saturating clamp into the `i64` range (Rust float-to-int `as i64`
casts saturate at the type's bounds). -/
def i64sat (n : Int) : Int := max i64min (min n i64max)

/-- Reinterpret an `i64` value as a `u64` (Rust `as u64` on an integer):
two's-complement wrap-around. -/
def i64toU64 (n : Int) : Nat := (n % (2 ^ 64)).toNat

/-- Reinterpret a `u64` value as an `i64` (Rust `as i64` on an integer):
two's-complement wrap-around. -/
def u64toI64 (n : Nat) : Int :=
  if n % 2 ^ 64 < 2 ^ 63 then ((n % 2 ^ 64 : Nat) : Int)
  else ((n % 2 ^ 64 : Nat) : Int) - 2 ^ 64

/-- Floor of a rational, the model of `f64::floor`.  The denominator of a
`Rat` is positive, so flooring division of the numerator is the floor. -/
def ratFloor (q : ℚ) : Int := Int.fdiv q.num q.den

/-- Truncation of a rational toward zero, the rounding used by Rust
float-to-int `as` casts. -/
def ratTrunc (q : ℚ) : Int :=
  if 0 ≤ q.num then ((q.num.toNat / q.den : Nat) : Int)
  else -(((-q.num).toNat / q.den : Nat) : Int)

/-- Integer division by a positive constant, truncating toward zero: the
rounding of `chrono::Duration::num_milliseconds`. -/
def intTdiv (a : Int) (b : Nat) : Int :=
  if 0 ≤ a then ((a.toNat / b : Nat) : Int) else -(((-a).toNat / b : Nat) : Int)

/-- Simulation time: a `u64` microsecond offset from the simulation
epoch (`SimTime` in `src/time/sim_time.rs`). -/
structure SimTime where
  micros : Nat
deriving DecidableEq, Repr

/-- Simulation duration: a `chrono::Duration`, held as a signed
microsecond count (`SimDuration` in `src/time/sim_time.rs`). -/
structure SimDuration where
  micros : Int
deriving DecidableEq, Repr

/-- Wall-clock instant: a `chrono::NaiveDateTime`, held as a signed
microsecond offset from the Unix epoch (`WallTime` in
`src/time/real_time.rs`). -/
structure WallTime where
  micros : Int
deriving DecidableEq, Repr

/-- Wall-clock duration: a `chrono::Duration`, held as a signed
microsecond count (`TimeDuration` in `src/time/real_time.rs`). -/
structure TimeDuration where
  micros : Int
deriving DecidableEq, Repr

namespace SimTime

/-- `SimTime::from_micros`. -/
def from_micros (microseconds : Nat) : SimTime := ⟨microseconds⟩

/-- `SimTime::from_seconds`. -/
def from_seconds (seconds : Nat) : SimTime := ⟨seconds * 1000000⟩

/-- `SimTime::zero`. -/
def zero : SimTime := ⟨0⟩

/-- `SimTime::as_micros`. -/
def as_micros (t : SimTime) : Nat := t.micros

end SimTime

namespace SimDuration

/-- `SimDuration::zero`. -/
def zero : SimDuration := ⟨0⟩

/-- `SimDuration::milliseconds`. -/
def milliseconds (millis : Int) : SimDuration := ⟨millis * 1000⟩

/-- `SimDuration::microseconds`. -/
def microseconds (micros : Int) : SimDuration := ⟨micros⟩

/-- `chrono::Duration::num_milliseconds`: whole milliseconds, truncated
toward zero. -/
def num_milliseconds (d : SimDuration) : Int := intTdiv d.micros 1000

/-- `chrono::Duration::num_microseconds`: `None` when the count does not
fit an `i64`. -/
def num_microseconds (d : SimDuration) : Option Int :=
  if i64min ≤ d.micros ∧ d.micros ≤ i64max then some d.micros else none

/-- `impl Div<f64> for SimDuration`:
`SimDuration::milliseconds((self.0.num_milliseconds() as f64 / rhs) as i64)`. -/
def divF64 (d : SimDuration) (rhs : ℚ) : SimDuration :=
  milliseconds (i64sat (ratTrunc ((d.num_milliseconds : ℚ) / rhs)))

end SimDuration

namespace TimeDuration

/-- `TimeDuration::zero`. -/
def zero : TimeDuration := ⟨0⟩

/-- `TimeDuration::milliseconds`. -/
def milliseconds (millis : Int) : TimeDuration := ⟨millis * 1000⟩

/-- `chrono::Duration::num_milliseconds` for the wall-duration wrapper. -/
def num_milliseconds (d : TimeDuration) : Int := intTdiv d.micros 1000

/-- `chrono::Duration::num_microseconds` for the wall-duration wrapper. -/
def num_microseconds (d : TimeDuration) : Option Int :=
  if i64min ≤ d.micros ∧ d.micros ≤ i64max then some d.micros else none

/-- `impl Sub for TimeDuration`. -/
def sub (a b : TimeDuration) : TimeDuration := ⟨a.micros - b.micros⟩

/-- `impl AddAssign<TimeDuration> for TimeDuration`, as a pure addition. -/
def add (a b : TimeDuration) : TimeDuration := ⟨a.micros + b.micros⟩

/-- `impl Mul<f64> for TimeDuration`:
`Duration::microseconds((self.0.num_microseconds().unwrap() as f64 * rhs).floor() as i64)`.
The `unwrap` panics (here: `none`) when the duration overflows `i64`
microseconds; the float cast then saturates into the `i64` range. -/
def mulF64 (d : TimeDuration) (rhs : ℚ) : Option TimeDuration :=
  d.num_microseconds.map fun m => ⟨i64sat (ratFloor ((m : ℚ) * rhs))⟩

end TimeDuration

namespace WallTime

/-- `impl Sub for WallTime`: yields a `TimeDuration`. -/
def sub (a b : WallTime) : TimeDuration := ⟨a.micros - b.micros⟩

/-- `impl AddAssign<TimeDuration> for WallTime`, as a pure addition. -/
def add (w : WallTime) (d : TimeDuration) : WallTime := ⟨w.micros + d.micros⟩

end WallTime

namespace SimTime

/-- `impl Sub for SimTime`: when `self.0 >= rhs.0` the `u64` difference
is cast `as i64` (two's-complement wrap) into a duration; otherwise the
result clamps to the zero duration. -/
def sub (a b : SimTime) : SimDuration :=
  if b.micros ≤ a.micros then SimDuration.microseconds (u64toI64 (a.micros - b.micros))
  else SimDuration.zero

/-- `impl Add<SimDuration> for SimTime`:
`SimTime::from_micros(self.0 + duration as u64)` where `duration` is
`rhs.0.num_microseconds().expect(..)` — `none` models the panic, the
`as u64` cast wraps, and the `u64` addition is taken modulo `2 ^ 64`. -/
def addSimDuration (t : SimTime) (d : SimDuration) : Option SimTime :=
  d.num_microseconds.map fun m => ⟨(t.micros + i64toU64 m) % 2 ^ 64⟩

/-- `impl Add<TimeDuration> for SimTime`: same shape as the
`SimDuration` addition, including the `expect` and the `as u64` wrap. -/
def addTimeDuration (t : SimTime) (d : TimeDuration) : Option SimTime :=
  d.num_microseconds.map fun m => ⟨(t.micros + i64toU64 m) % 2 ^ 64⟩

end SimTime

/-- The states a clock may be in (`ClockState` in `src/time/mod.rs`). -/
inductive ClockState where
  | Running : ClockState
  | Stopped : ClockState
  | Paused : ClockState
deriving DecidableEq, Repr, BEq

/-- `RealTimeSimClock` (`src/time/real_time_sim_clock.rs`): a simulation
clock deriving simulation time from wall time, accumulated pause time
and a time-dilation factor. -/
structure RealTimeSimClock where
  simulation_start_time : WallTime
  relative_start_time : SimTime
  paused_time : TimeDuration
  time_dilation : ℚ
  state : ClockState
  pause_start_time : Option WallTime
deriving DecidableEq, Repr

namespace RealTimeSimClock

/-- `impl Default for RealTimeSimClock`, with the `WallTime::now()`
reading as an explicit argument. -/
def default (rt_now : WallTime) : RealTimeSimClock :=
  { simulation_start_time := rt_now
    relative_start_time := SimTime.from_seconds 0
    paused_time := TimeDuration.zero
    time_dilation := 1
    state := ClockState.Stopped
    pause_start_time := none }

/-- `RealTimeSimClock::now`, with the single `WallTime::now()` reading as
the explicit argument `rt_now`.  The result is `Option` because the
`SimTime + TimeDuration` addition can panic. -/
def now (c : RealTimeSimClock) (rt_now : WallTime) : Option SimTime :=
  let current_pause : TimeDuration :=
    match c.pause_start_time with
    | some pause => rt_now.sub pause
    | none => TimeDuration.milliseconds 0
  let execution_time :=
    ((rt_now.sub c.simulation_start_time).sub c.paused_time).sub current_pause
  (execution_time.mulF64 c.time_dilation).bind fun p =>
    SimTime.addTimeDuration c.relative_start_time p

/-- `RealTimeSimClock::delay_time`: `delta = (then - self.now()) / time_dilation`;
the result is the millisecond conversion of `delta` when `delta > 0`
(a `num_milliseconds`-level comparison) and the zero duration otherwise.
`thenT` is the Rust parameter `then` (a Lean keyword). -/
def delay_time (c : RealTimeSimClock) (thenT : SimTime) (rt_now : WallTime) :
    Option TimeDuration :=
  (c.now rt_now).map fun n =>
    let delta := (thenT.sub n).divF64 c.time_dilation
    if 0 < delta.num_milliseconds then TimeDuration.milliseconds delta.num_milliseconds
    else TimeDuration.zero

/-- `SimClock::start` for `RealTimeSimClock`: installs the four
arguments, forces the `Paused` state and anchors the pause at the
current wall instant.  No argument is validated. -/
def start (c : RealTimeSimClock) (simulation_start_time : WallTime)
    (relative_start_time : SimTime) (elapsed_pause_time : TimeDuration)
    (time_dilation : ℚ) (rt_now : WallTime) : RealTimeSimClock :=
  { c with
    simulation_start_time := simulation_start_time
    relative_start_time := relative_start_time
    paused_time := elapsed_pause_time
    time_dilation := time_dilation
    state := ClockState.Paused
    pause_start_time := some rt_now }

/-- `SimClock::offset_by` for `RealTimeSimClock`. -/
def offset_by (c : RealTimeSimClock) (by' : TimeDuration) : RealTimeSimClock :=
  { c with simulation_start_time := c.simulation_start_time.add by' }

/-- `SimClock::pause` for `RealTimeSimClock`: sets the state to `Paused`
and overwrites the pause anchor with the current wall instant. -/
def pause (c : RealTimeSimClock) (rt_now : WallTime) : RealTimeSimClock :=
  { c with state := ClockState.Paused, pause_start_time := some rt_now }

/-- `SimClock::resume` for `RealTimeSimClock`:
`paused_time += now - pause_start_time.unwrap_or(now)`, then transition
to `Running` and clear the anchor.  The two adjacent `WallTime::now()`
reads in the source are modelled as the same instant `rt_now`. -/
def resume (c : RealTimeSimClock) (rt_now : WallTime) : RealTimeSimClock :=
  { c with
    paused_time := c.paused_time.add (rt_now.sub (c.pause_start_time.getD rt_now))
    state := ClockState.Running
    pause_start_time := none }

/-- `SimClock::stop` for `RealTimeSimClock`: records the pause anchor and
sets the state to `Stopped`. -/
def stop (c : RealTimeSimClock) (rt_now : WallTime) : RealTimeSimClock :=
  { c with pause_start_time := some rt_now, state := ClockState.Stopped }

/-- `SimClock::elapsed` for `RealTimeSimClock`: `now() - relative_start_time`. -/
def elapsed (c : RealTimeSimClock) (rt_now : WallTime) : Option SimDuration :=
  (c.now rt_now).map fun n => n.sub c.relative_start_time

/-- `SimClock::is_paused`. -/
def is_paused (c : RealTimeSimClock) : Bool := c.state == ClockState.Paused

/-- `SimClock::is_running`. -/
def is_running (c : RealTimeSimClock) : Bool := c.state == ClockState.Running

/-- `SimClock::is_stopped`. -/
def is_stopped (c : RealTimeSimClock) : Bool := c.state == ClockState.Stopped

/-- The `now()` formula as the specification states it: with
`current_pause` equal to `rt_now - pause_anchor` when an anchor is set
and the zero duration otherwise, the result is
`relative_start_time + (rt_now - simulation_start_time - paused_time - current_pause) * time_dilation`. -/
def now_spec (c : RealTimeSimClock) (rt_now : WallTime) : Option SimTime :=
  let current_pause : TimeDuration :=
    match c.pause_start_time with
    | some pause => rt_now.sub pause
    | none => TimeDuration.zero
  ((((rt_now.sub c.simulation_start_time).sub c.paused_time).sub
      current_pause).mulF64 c.time_dilation).bind fun p =>
    SimTime.addTimeDuration c.relative_start_time p

end RealTimeSimClock

/-- C1: for every clock and wall reading `rt_now` taken inside the call,
`now()` returns `relative_start_time + (rt_now - simulation_start_time -
paused_time - current_pause) * time_dilation`, with `current_pause =
rt_now - pause_start_time` when a pause anchor is set and zero
otherwise; the result is the same in every clock state. -/
theorem now_eq_now_spec (c : RealTimeSimClock) (rt_now : WallTime) (s : ClockState) :
    RealTimeSimClock.now c rt_now = RealTimeSimClock.now_spec c rt_now ∧
    RealTimeSimClock.now { c with state := s } rt_now = RealTimeSimClock.now c rt_now := by
  constructor
  · cases h : c.pause_start_time <;>
      simp [RealTimeSimClock.now, RealTimeSimClock.now_spec, h,
        TimeDuration.milliseconds, TimeDuration.zero]
  · cases h : c.pause_start_time <;>
      simp [RealTimeSimClock.now, h]

/-- Evaluation helper: the floor of an integer viewed as a rational is
the integer itself. -/
lemma ratFloor_intCast (n : Int) : ratFloor (n : ℚ) = n := by
  simp [ratFloor, Int.fdiv_one]

/-- Evaluation helper: truncating an integer viewed as a rational gives
back the integer. -/
lemma ratTrunc_intCast (n : Int) : ratTrunc (n : ℚ) = n := by
  unfold ratTrunc
  simp only [Rat.num_intCast, Rat.den_intCast, Nat.div_one]
  by_cases h : 0 ≤ n
  · simp [h, Int.toNat_of_nonneg]
  · simp only [h, if_false]
    omega

/-- Evaluation helper: multiplying a duration by the dilation factor 1
is the saturated identity on its microsecond count. -/
lemma TimeDuration.mulF64_one (d : TimeDuration) :
    d.mulF64 1 = d.num_microseconds.map fun m => ⟨i64sat m⟩ := by
  unfold TimeDuration.mulF64
  cases d.num_microseconds <;> simp [mul_one, ratFloor_intCast]

/-- Evaluation helper: dividing a duration by the dilation factor 1
saturates its millisecond count and converts back. -/
lemma SimDuration.divF64_one (d : SimDuration) :
    d.divF64 1 = SimDuration.milliseconds (i64sat d.num_milliseconds) := by
  unfold SimDuration.divF64
  rw [div_one, ratTrunc_intCast]

/-- C5 counterexample: a default-constructed clock is in the `Stopped`
state yet has no pause anchor, so its `now()` is not frozen: read at the
construction instant it returns `0`, read 2ms of wall time later it
returns `2000` microseconds. -/
theorem default_stopped_clock_now_varies_cex :
    (RealTimeSimClock.default ⟨0⟩).is_stopped = true ∧
    RealTimeSimClock.now (RealTimeSimClock.default ⟨0⟩) ⟨0⟩ ≠
      RealTimeSimClock.now (RealTimeSimClock.default ⟨0⟩) ⟨2000⟩ := by
  constructor
  · decide
  · simp only [RealTimeSimClock.now, RealTimeSimClock.default, TimeDuration.mulF64_one]
    decide

/-- C5 amended: `now()` is frozen across wall instants exactly when a
pause anchor is set — the state alone does not freeze it.  `pause()` and
`stop()` (and `start()`) establish the anchor, so a clock that entered
`Paused` or `Stopped` through those operations returns the identical
`now()` value at every later wall reading. -/
theorem now_frozen_when_anchor_set (c : RealTimeSimClock) (p rt1 rt2 w : WallTime) :
    (c.pause_start_time = some p →
      RealTimeSimClock.now c rt1 = RealTimeSimClock.now c rt2) ∧
    (c.pause w).pause_start_time = some w ∧
    (c.stop w).pause_start_time = some w := by
  refine ⟨fun h => ?_, rfl, rfl⟩
  simp only [RealTimeSimClock.now, h]
  have hexec : ((rt1.sub c.simulation_start_time).sub c.paused_time).sub (rt1.sub p) =
      ((rt2.sub c.simulation_start_time).sub c.paused_time).sub (rt2.sub p) := by
    simp only [WallTime.sub, TimeDuration.sub, TimeDuration.mk.injEq]
    ring
  rw [hexec]

/-- C5 witness: a clock stopped at wall instant 500 reports the same
`now()` at wall instants 1000 and 9000. -/
theorem now_frozen_when_anchor_set_witness :
    RealTimeSimClock.now (RealTimeSimClock.stop (RealTimeSimClock.default ⟨0⟩) ⟨500⟩) ⟨1000⟩ =
      RealTimeSimClock.now (RealTimeSimClock.stop (RealTimeSimClock.default ⟨0⟩) ⟨500⟩) ⟨9000⟩ :=
  (now_frozen_when_anchor_set
    (RealTimeSimClock.stop (RealTimeSimClock.default ⟨0⟩) ⟨500⟩)
    ⟨500⟩ ⟨1000⟩ ⟨9000⟩ ⟨0⟩).1 rfl

/-- C6 counterexample: `start()` performs no validation of the dilation
factor — calling it with `time_dilation = -1` installs `-1`, so after
this `start()` call the dilation used by `now()`/`delay_time` is not
strictly positive. -/
theorem start_installs_nonpositive_dilation_cex :
    (RealTimeSimClock.start (RealTimeSimClock.default ⟨0⟩) ⟨0⟩ SimTime.zero
        TimeDuration.zero (-1) ⟨0⟩).time_dilation = -1 ∧
    ¬ (0 < (RealTimeSimClock.start (RealTimeSimClock.default ⟨0⟩) ⟨0⟩ SimTime.zero
        TimeDuration.zero (-1) ⟨0⟩).time_dilation) := by
  constructor
  · rfl
  · decide

/-- C6 amended: `start()` installs the given `time_dilation` unchanged
and unconditionally — non-positive values included — while forcing the
`Paused` state and anchoring the pause at the current wall instant; the
`time_dilation > 0` invariant is a caller obligation, not checked by
`start()`. -/
theorem start_installs_dilation_unvalidated (c : RealTimeSimClock)
    (sst : WallTime) (rst : SimTime) (ept : TimeDuration) (td : ℚ) (rt_now : WallTime) :
    (c.start sst rst ept td rt_now).time_dilation = td ∧
    (c.start sst rst ept td rt_now).state = ClockState.Paused ∧
    (c.start sst rst ept td rt_now).pause_start_time = some rt_now ∧
    (c.start sst rst ept td rt_now).paused_time = ept :=
  ⟨rfl, rfl, rfl, rfl⟩

/-- C7: calling `pause()` while already `Paused` overwrites the pause
anchor with the later instant and thereby corrupts the accounting.  A
clock paused at wall instant 1000 and resumed at 5000 accumulates
4000µs of paused time; pausing it again at 3000 in between leaves only
2000µs, and the subsequent `now()` readings diverge by the lost 2000µs
— the redundant `pause()` silently drops the first 2000µs of pause. -/
theorem double_pause_corrupts_accounting :
    (RealTimeSimClock.resume (RealTimeSimClock.pause
        (RealTimeSimClock.pause (RealTimeSimClock.default ⟨0⟩) ⟨1000⟩) ⟨3000⟩)
      ⟨5000⟩).paused_time = ⟨2000⟩ ∧
    (RealTimeSimClock.resume (RealTimeSimClock.pause (RealTimeSimClock.default ⟨0⟩) ⟨1000⟩)
      ⟨5000⟩).paused_time = ⟨4000⟩ ∧
    RealTimeSimClock.now (RealTimeSimClock.resume (RealTimeSimClock.pause
        (RealTimeSimClock.pause (RealTimeSimClock.default ⟨0⟩) ⟨1000⟩) ⟨3000⟩) ⟨5000⟩) ⟨6000⟩ ≠
      RealTimeSimClock.now (RealTimeSimClock.resume
        (RealTimeSimClock.pause (RealTimeSimClock.default ⟨0⟩) ⟨1000⟩) ⟨5000⟩) ⟨6000⟩ := by
  refine ⟨rfl, rfl, ?_⟩
  simp only [RealTimeSimClock.now, RealTimeSimClock.default, RealTimeSimClock.pause,
    RealTimeSimClock.resume, TimeDuration.mulF64_one]
  decide

/-- C8: `resume()` transitions to `Running` and clears the pause anchor;
when an anchor `p` is set it adds `rt_now - p` to the accumulated paused
time, and when no anchor is set the fallback anchor is the current
instant itself, contributing exactly zero paused time. -/
theorem resume_spec (c : RealTimeSimClock) (rt_now : WallTime) :
    (c.resume rt_now).state = ClockState.Running ∧
    (c.resume rt_now).pause_start_time = none ∧
    (∀ p, c.pause_start_time = some p →
      (c.resume rt_now).paused_time = c.paused_time.add (rt_now.sub p)) ∧
    (c.pause_start_time = none → (c.resume rt_now).paused_time = c.paused_time) := by
  refine ⟨rfl, rfl, fun p h => ?_, fun h => ?_⟩
  · simp [RealTimeSimClock.resume, h]
  · simp only [RealTimeSimClock.resume, h, Option.getD_none, WallTime.sub,
      TimeDuration.add, sub_self, add_zero]

/-- C8 witness: resuming at wall instant 5000 a clock paused at 1000
accumulates exactly 4000µs of paused time and runs; resuming a clock
with no anchor leaves the accumulated paused time unchanged. -/
theorem resume_spec_witness :
    (RealTimeSimClock.resume (RealTimeSimClock.pause (RealTimeSimClock.default ⟨0⟩) ⟨1000⟩)
        ⟨5000⟩).paused_time = TimeDuration.zero.add (WallTime.sub ⟨5000⟩ ⟨1000⟩) ∧
    (RealTimeSimClock.resume (RealTimeSimClock.default ⟨0⟩) ⟨5000⟩).paused_time =
      TimeDuration.zero :=
  ⟨(resume_spec (RealTimeSimClock.pause (RealTimeSimClock.default ⟨0⟩) ⟨1000⟩) ⟨5000⟩).2.2.1
      ⟨1000⟩ rfl,
    (resume_spec (RealTimeSimClock.default ⟨0⟩) ⟨5000⟩).2.2.2 rfl⟩

/-- C9 counterexample: for `u64` differences of at least `2 ^ 63`
microseconds the `as i64` cast in `SimTime` subtraction wraps, so the
result is a negative duration instead of the mathematical difference:
`SimTime(2 ^ 63) - SimTime(0)` yields `-(2 ^ 63)` microseconds. -/
theorem simtime_sub_wraps_cex :
    SimTime.sub ⟨2 ^ 63⟩ ⟨0⟩ ≠ SimDuration.microseconds ((2 ^ 63 : Nat) : Int) ∧
    (SimTime.sub ⟨2 ^ 63⟩ ⟨0⟩).micros < 0 := by
  constructor
  · decide
  · decide

/-- C9 amended: `SimTime` subtraction clamps at the epoch — `a - b` is
the zero duration when `a < b` — and equals the `SimDuration` of
`a.as_micros() - b.as_micros()` microseconds when `a ≥ b`, provided the
difference is below `2 ^ 63` microseconds; for differences of `2 ^ 63`
up to `2 ^ 64` microseconds the `u64` difference wraps through the
`as i64` cast to `difference - 2 ^ 64`, a negative duration. -/
theorem simtime_sub_amended (a b : SimTime) :
    (b.micros ≤ a.micros → (a.micros : Int) - b.micros < 2 ^ 63 →
      a.sub b = SimDuration.microseconds ((a.micros : Int) - b.micros)) ∧
    (a.micros < b.micros → a.sub b = SimDuration.zero) ∧
    (b.micros ≤ a.micros → (2 ^ 63 : Int) ≤ (a.micros : Int) - b.micros →
      (a.micros : Int) - b.micros < 2 ^ 64 →
      a.sub b = SimDuration.microseconds ((a.micros : Int) - b.micros - 2 ^ 64)) := by
  refine ⟨fun hba hlt => ?_, fun hab => ?_, fun hba h1 h2 => ?_⟩
  · rw [SimTime.sub, if_pos hba]
    unfold u64toI64 SimDuration.microseconds
    simp only [SimDuration.mk.injEq]
    split <;> omega
  · rw [SimTime.sub, if_neg (by omega)]
  · rw [SimTime.sub, if_pos hba]
    unfold u64toI64 SimDuration.microseconds
    simp only [SimDuration.mk.injEq]
    split <;> omega

/-- C9 witness: `SimTime(5000) - SimTime(2000)` is the 3000-microsecond
duration and `SimTime(2000) - SimTime(5000)` clamps to zero. -/
theorem simtime_sub_amended_witness :
    SimTime.sub ⟨5000⟩ ⟨2000⟩ = SimDuration.microseconds 3000 ∧
    SimTime.sub ⟨2000⟩ ⟨5000⟩ = SimDuration.zero := by
  constructor
  · have h := (simtime_sub_amended ⟨5000⟩ ⟨2000⟩).1 (by decide) (by decide)
    simpa using h
  · exact (simtime_sub_amended ⟨2000⟩ ⟨5000⟩).2.1 (by decide)

/-- C10: adding a duration to a `SimTime` does not clamp at the epoch:
a negative `SimDuration` or `TimeDuration` whose magnitude exceeds the
time value wraps through the `as u64` cast to an enormous value (at
least `2 ^ 63` microseconds), the addition panics (`none`) when the
duration's microsecond count overflows `i64`, and consequently `now()`
returns a huge wrapped `SimTime` when the computed execution time is
negative — here after `offset_by` moves `simulation_start_time` one
second past the current wall instant. -/
theorem simtime_add_wraps (t : SimTime) (d : SimDuration) (d' : TimeDuration) :
    (t.micros < 2 ^ 64 → i64min ≤ d.micros → d.micros < 0 →
      (t.micros : Int) + d.micros < 0 →
      t.addSimDuration d = some ⟨((2 ^ 64 : Int) + t.micros + d.micros).toNat⟩ ∧
      2 ^ 63 ≤ ((2 ^ 64 : Int) + t.micros + d.micros).toNat) ∧
    (t.micros < 2 ^ 64 → i64min ≤ d'.micros → d'.micros < 0 →
      (t.micros : Int) + d'.micros < 0 →
      t.addTimeDuration d' = some ⟨((2 ^ 64 : Int) + t.micros + d'.micros).toNat⟩ ∧
      2 ^ 63 ≤ ((2 ^ 64 : Int) + t.micros + d'.micros).toNat) ∧
    (i64max < d.micros ∨ d.micros < i64min → t.addSimDuration d = none) ∧
    (i64max < d'.micros ∨ d'.micros < i64min → t.addTimeDuration d' = none) ∧
    RealTimeSimClock.now
        (RealTimeSimClock.offset_by (RealTimeSimClock.default ⟨0⟩) ⟨1000000000⟩) ⟨0⟩ =
      some ⟨2 ^ 64 - 1000000000⟩ := by
  refine ⟨fun hb hlo hneg hmag => ?_, fun hb hlo hneg hmag => ?_,
    fun hout => ?_, fun hout => ?_, ?_⟩
  · rw [SimTime.addSimDuration, SimDuration.num_microseconds,
      if_pos (by unfold i64min i64max at *; omega)]
    unfold i64toU64 i64min at *
    simp only [Option.map_some', Option.some.injEq, SimTime.mk.injEq]
    constructor
    · omega
    · omega
  · rw [SimTime.addTimeDuration, TimeDuration.num_microseconds,
      if_pos (by unfold i64min i64max at *; omega)]
    unfold i64toU64 i64min at *
    simp only [Option.map_some', Option.some.injEq, SimTime.mk.injEq]
    constructor
    · omega
    · omega
  · rw [SimTime.addSimDuration, SimDuration.num_microseconds,
      if_neg (by unfold i64min i64max at *; omega)]
    rfl
  · rw [SimTime.addTimeDuration, TimeDuration.num_microseconds,
      if_neg (by unfold i64min i64max at *; omega)]
    rfl
  · simp only [RealTimeSimClock.now, RealTimeSimClock.default, RealTimeSimClock.offset_by,
      WallTime.add, TimeDuration.mulF64_one]
    decide

/-- C10 witness: adding the `-5`-microsecond duration to `SimTime(0)`
wraps to `2 ^ 64 - 5` microseconds, and adding a duration of `2 ^ 63`
microseconds (overflowing `i64`) panics. -/
theorem simtime_add_wraps_witness :
    SimTime.addSimDuration ⟨0⟩ ⟨-5⟩ = some ⟨((2 ^ 64 : Int) + (0 : Nat) + (-5 : Int)).toNat⟩ ∧
    SimTime.addSimDuration ⟨0⟩ ⟨2 ^ 63⟩ = none :=
  ⟨((simtime_add_wraps ⟨0⟩ ⟨-5⟩ ⟨-5⟩).1 (by decide) (by decide) (by decide) (by decide)).1,
    (simtime_add_wraps ⟨0⟩ ⟨2 ^ 63⟩ ⟨0⟩).2.2.1 (Or.inl (by decide))⟩

/-- Evaluation helper: truncating division of zero is zero. -/
lemma intTdiv_zero (b : Nat) : intTdiv 0 b = 0 := by
  simp [intTdiv]

/-- Evaluation helper: truncating a nonnegative rational gives a
nonnegative integer. -/
lemma ratTrunc_nonneg (q : ℚ) (h : 0 ≤ q) : 0 ≤ ratTrunc q := by
  unfold ratTrunc
  rw [if_pos (Rat.num_nonneg.mpr h)]
  positivity

/-- Evaluation helper: truncating division undoes multiplication by the
positive constant 1000. -/
lemma intTdiv_mul_cancel (m : Int) : intTdiv (m * 1000) 1000 = m := by
  unfold intTdiv
  split <;> omega

/-- Evaluation helper: truncating the zero rational gives zero. -/
lemma ratTrunc_zero : ratTrunc 0 = 0 := by
  simpa using ratTrunc_intCast 0

/-- Evaluation helper: dividing the zero duration by any dilation factor
gives the zero duration in milliseconds. -/
lemma SimDuration.divF64_zero_num (r : ℚ) :
    SimDuration.divF64 ⟨0⟩ r = SimDuration.milliseconds 0 := by
  unfold SimDuration.divF64 SimDuration.num_milliseconds
  rw [intTdiv_zero]
  norm_num [ratTrunc_zero, i64sat, i64min, i64max]

/-- Evaluation helper: truncating division of a nonnegative integer is
nonnegative. -/
lemma intTdiv_nonneg (a : Int) (b : Nat) (h : 0 ≤ a) : 0 ≤ intTdiv a b := by
  unfold intTdiv
  rw [if_pos h]
  positivity

/-- Evaluation helper: the saturating `i64` clamp preserves
nonnegativity. -/
lemma i64sat_nonneg (n : Int) (h : 0 ≤ n) : 0 ≤ i64sat n := by
  unfold i64sat i64min i64max
  omega

/-- Evaluation helper: `SimTime` subtraction on differences below
`2 ^ 63` microseconds is the exact integer difference. -/
lemma SimTime.sub_eq_small (a b : SimTime) (hba : b.micros ≤ a.micros)
    (h : (a.micros : Int) - b.micros < 2 ^ 63) :
    a.sub b = ⟨(a.micros : Int) - b.micros⟩ := by
  unfold SimTime.sub
  rw [if_pos hba]
  unfold u64toI64 SimDuration.microseconds
  simp only [SimDuration.mk.injEq]
  split <;> omega

/-- C2 counterexample: with the default clock (dilation 1, `now() = 0`),
the target `then = 2 ^ 63` microseconds is strictly in the future, yet
`delay_time` returns the zero duration instead of the conversion of the
gap: the `u64` difference `then - now()` wraps through the `as i64` cast
to a negative delta, so the positive-delta branch is not taken. -/
theorem delay_time_wraps_cex :
    RealTimeSimClock.now (RealTimeSimClock.default ⟨0⟩) ⟨0⟩ = some ⟨0⟩ ∧
    (SimTime.mk 0).micros < (SimTime.mk (2 ^ 63)).micros ∧
    RealTimeSimClock.delay_time (RealTimeSimClock.default ⟨0⟩) ⟨2 ^ 63⟩ ⟨0⟩ =
      some TimeDuration.zero ∧
    TimeDuration.zero ≠ TimeDuration.milliseconds (intTdiv (2 ^ 63) 1000) := by
  refine ⟨?_, by decide, ?_, by decide⟩
  · simp only [RealTimeSimClock.now, RealTimeSimClock.default, TimeDuration.mulF64_one]
    decide
  · simp only [RealTimeSimClock.delay_time, RealTimeSimClock.now, RealTimeSimClock.default,
      TimeDuration.mulF64_one, SimDuration.divF64_one]
    decide

/-- C2 amended: `delay_time(then)` returns the zero duration whenever
`then <= now()`; when `then` is in the future by less than `2 ^ 63`
microseconds and the dilation factor is positive, it returns exactly
`(then - now()) / time_dilation` converted to a wall-clock duration at
millisecond granularity (which is itself zero for sub-millisecond
gaps); and the result is never negative. -/
theorem delay_time_amended (c : RealTimeSimClock) (thenT n : SimTime) (rt : WallTime) :
    (c.now rt = some n → thenT.micros ≤ n.micros →
      c.delay_time thenT rt = some TimeDuration.zero) ∧
    (0 < c.time_dilation → c.now rt = some n → n.micros < thenT.micros →
      (thenT.micros : Int) - n.micros < 2 ^ 63 →
      c.delay_time thenT rt =
        some (TimeDuration.milliseconds
          (((thenT.sub n).divF64 c.time_dilation).num_milliseconds))) ∧
    (∀ d, c.delay_time thenT rt = some d → 0 ≤ d.micros) := by
  refine ⟨fun h hle => ?_, fun hd h hlt hb => ?_, fun d hsome => ?_⟩
  · unfold RealTimeSimClock.delay_time
    rw [h, Option.map_some']
    have hsub : thenT.sub n = ⟨0⟩ := by
      unfold SimTime.sub
      split
      · have hz : thenT.micros - n.micros = 0 := by omega
        rw [hz]
        decide
      · rfl
    rw [hsub, SimDuration.divF64_zero_num]
    norm_num [SimDuration.num_milliseconds, SimDuration.milliseconds, intTdiv_zero]
  · unfold RealTimeSimClock.delay_time
    rw [h, Option.map_some']
    have hsub : thenT.sub n = ⟨(thenT.micros : Int) - n.micros⟩ :=
      SimTime.sub_eq_small thenT n (by omega) hb
    have hnum : ((thenT.sub n).divF64 c.time_dilation).num_milliseconds =
        i64sat (ratTrunc (((SimDuration.num_milliseconds ⟨(thenT.micros : Int) - n.micros⟩ : Int) : ℚ) /
          c.time_dilation)) := by
      rw [hsub]
      unfold SimDuration.divF64
      rw [SimDuration.num_milliseconds, SimDuration.milliseconds]
      show intTdiv (_ * 1000) 1000 = _
      rw [intTdiv_mul_cancel]
    have hx : 0 ≤ i64sat (ratTrunc (((SimDuration.num_milliseconds ⟨(thenT.micros : Int) - n.micros⟩ : Int) : ℚ) /
        c.time_dilation)) := by
      apply i64sat_nonneg
      apply ratTrunc_nonneg
      apply div_nonneg
      · exact_mod_cast intTdiv_nonneg _ _
          (show (0 : Int) ≤ (thenT.micros : Int) - n.micros by omega)
      · exact le_of_lt hd
    simp only [hnum]
    by_cases hx0 : 0 < i64sat (ratTrunc (((SimDuration.num_milliseconds ⟨(thenT.micros : Int) - n.micros⟩ : Int) : ℚ) /
        c.time_dilation))
    · rw [if_pos hx0]
    · rw [if_neg hx0]
      have hx00 : i64sat (ratTrunc (((SimDuration.num_milliseconds ⟨(thenT.micros : Int) - n.micros⟩ : Int) : ℚ) /
          c.time_dilation)) = 0 := by omega
      rw [hx00]
      decide
  · unfold RealTimeSimClock.delay_time at hsome
    cases hn : c.now rt with
    | none => rw [hn] at hsome; simp at hsome
    | some m =>
      rw [hn, Option.map_some'] at hsome
      simp only [Option.some.injEq] at hsome
      by_cases hc : 0 < ((thenT.sub m).divF64 c.time_dilation).num_milliseconds
      · rw [if_pos hc] at hsome
        rw [← hsome]
        unfold TimeDuration.milliseconds
        positivity
      · rw [if_neg hc] at hsome
        rw [← hsome]
        decide

/-- C2 witness: on the default clock (dilation 1, `now() = 0`),
`delay_time` of the present instant is zero and `delay_time` of a target
5 seconds ahead is the converted 5000ms gap. -/
theorem delay_time_amended_witness :
    RealTimeSimClock.delay_time (RealTimeSimClock.default ⟨0⟩) ⟨0⟩ ⟨0⟩ =
      some TimeDuration.zero ∧
    RealTimeSimClock.delay_time (RealTimeSimClock.default ⟨0⟩) ⟨5000000⟩ ⟨0⟩ =
      some (TimeDuration.milliseconds
        ((((⟨5000000⟩ : SimTime).sub ⟨0⟩).divF64
          (RealTimeSimClock.default ⟨0⟩).time_dilation).num_milliseconds)) :=
  ⟨(delay_time_amended (RealTimeSimClock.default ⟨0⟩) ⟨0⟩ ⟨0⟩ ⟨0⟩).1
      (by simp only [RealTimeSimClock.now, RealTimeSimClock.default, TimeDuration.mulF64_one]
          decide)
      (by decide),
    (delay_time_amended (RealTimeSimClock.default ⟨0⟩) ⟨5000000⟩ ⟨0⟩ ⟨0⟩).2.1
      (by decide)
      (by simp only [RealTimeSimClock.now, RealTimeSimClock.default, TimeDuration.mulF64_one]
          decide)
      (by decide) (by decide)⟩

/-- The `Event` trait (`src/scheduler/event.rs`), as a dictionary of its
methods over a caller-supplied event type `E`.  `execution_time` is the
`SimTime` microsecond offset (the scheduler's `T::Time` instantiated at
the simulation clock); the heap is ordered ascending by it, matching the
`Reverse`-wrapped `BinaryHeap` and the contract that the event order is
consistent with `execution_time` ascending. -/
structure EventImpl (E : Type) where
  name : E → String
  execution_time : E → Nat
  next_time : E → E

/-- `EventNotification` (`src/scheduler/event.rs`): one firing record,
carrying the fired event's name and execution time. -/
structure EventNotification where
  name : String
  time : Nat
deriving DecidableEq, Repr

/-- Popping the minimum entry of the scheduler's heap
(`BinaryHeap<Reverse<E>>::peek`/`pop` in `Scheduler::run`): returns a
minimal element by execution time together with the remaining entries,
or `none` on the empty heap.  The heap is modelled as a multiset (a
list); ties are broken by position, matching the unspecified tie-break
of the event type's total order. -/
def popMin {E : Type} (key : E → Nat) : List E → Option (E × List E)
  | [] => none
  | e :: es =>
    match popMin key es with
    | none => some (e, es)
    | some (m, rest) => if key e ≤ key m then some (e, es) else some (m, e :: rest)

/-- A heap with no minimum is empty. -/
lemma eq_nil_of_popMin_eq_none {E : Type} (key : E → Nat) (l : List E)
    (h : popMin key l = none) : l = [] := by
  cases l with
  | nil => rfl
  | cons e es =>
    cases hm : popMin key es with
    | none => simp [popMin, hm] at h
    | some p =>
      obtain ⟨m, r⟩ := p
      simp only [popMin, hm] at h
      split at h <;> simp at h

/-- Popping splits the heap into the popped element and the rest. -/
lemma popMin_perm {E : Type} (key : E → Nat) (l : List E) (e : E) (rest : List E)
    (h : popMin key l = some (e, rest)) : l.Perm (e :: rest) := by
  induction l generalizing e rest with
  | nil => simp [popMin] at h
  | cons a as ih =>
    cases hm : popMin key as with
    | none =>
      simp only [popMin, hm, Option.some.injEq, Prod.mk.injEq] at h
      obtain ⟨he, hr⟩ := h
      subst he; subst hr
      exact List.Perm.refl _
    | some p =>
      obtain ⟨m, r⟩ := p
      simp only [popMin, hm] at h
      by_cases hc : key a ≤ key m
      · rw [if_pos hc] at h
        simp only [Option.some.injEq, Prod.mk.injEq] at h
        obtain ⟨he, hr⟩ := h
        subst he; subst hr
        exact List.Perm.refl _
      · rw [if_neg hc] at h
        simp only [Option.some.injEq, Prod.mk.injEq] at h
        obtain ⟨he, hr⟩ := h
        subst he; subst hr
        exact ((ih m r hm).cons a).trans (List.Perm.swap m a r)

/-- The popped element is minimal in the heap. -/
lemma popMin_min {E : Type} (key : E → Nat) (l : List E) (e : E) (rest : List E)
    (h : popMin key l = some (e, rest)) : ∀ x ∈ l, key e ≤ key x := by
  induction l generalizing e rest with
  | nil => simp [popMin] at h
  | cons a as ih =>
    intro x hx
    cases hm : popMin key as with
    | none =>
      simp only [popMin, hm, Option.some.injEq, Prod.mk.injEq] at h
      obtain ⟨he, _⟩ := h
      subst he
      have has : as = [] := eq_nil_of_popMin_eq_none key as hm
      subst has
      simp at hx
      subst hx
      exact le_refl _
    | some p =>
      obtain ⟨m, r⟩ := p
      simp only [popMin, hm] at h
      by_cases hc : key a ≤ key m
      · rw [if_pos hc] at h
        simp only [Option.some.injEq, Prod.mk.injEq] at h
        obtain ⟨he, _⟩ := h
        subst he
        rcases List.mem_cons.mp hx with hx | hx
        · subst hx; exact le_refl _
        · exact le_trans hc (ih m r hm x hx)
      · rw [if_neg hc] at h
        simp only [Option.some.injEq, Prod.mk.injEq] at h
        obtain ⟨he, _⟩ := h
        subst he
        rcases List.mem_cons.mp hx with hx | hx
        · subst hx; exact le_of_lt (lt_of_not_le hc)
        · exact ih m r hm x hx

/-- The conditional re-insertion in `Scheduler::run`:
`if next_time.execution_time() > now { events.push(Reverse(next_time)) }`
applied to the popped event. -/
def pushNext {E : Type} (impl : EventImpl E) (now : Nat) (e : E) (rest : List E) : List E :=
  if now < impl.execution_time (impl.next_time e) then impl.next_time e :: rest else rest

/-- The re-inserted recurrence never counts as due in the same drain. -/
lemma filter_pushNext {E : Type} (impl : EventImpl E) (now : Nat) (e : E) (rest : List E) :
    (pushNext impl now e rest).filter (fun x => impl.execution_time x ≤ now) =
      rest.filter (fun x => impl.execution_time x ≤ now) := by
  unfold pushNext
  split
  · rw [List.filter_cons_of_neg]
    simp
    omega
  · rfl

/-- The heap-drain loop of `Scheduler::run` (`src/scheduler/internal.rs`):
`now` is read once before the loop; while the earliest entry's execution
time is at most `now`, the entry is popped, its recurrence is computed
and re-inserted when still in the future, and one notification carrying
the popped entry's name and execution time is emitted.  Returns the
final heap and the emitted notifications in order. -/
def drainHeap {E : Type} (impl : EventImpl E) (now : Nat) (heap : List E) :
    List E × List EventNotification :=
  match h : popMin impl.execution_time heap with
  | none => (heap, [])
  | some (e, rest) =>
    if hle : impl.execution_time e ≤ now then
      let r := drainHeap impl now (pushNext impl now e rest)
      (r.1, ⟨impl.name e, impl.execution_time e⟩ :: r.2)
    else (heap, [])
termination_by (heap.filter fun x => impl.execution_time x ≤ now).length
decreasing_by
  have hperm := popMin_perm impl.execution_time heap e rest h
  have hlen := (hperm.filter (fun x => impl.execution_time x ≤ now)).length_eq
  rw [filter_pushNext]
  rw [hlen, List.filter_cons_of_pos (by simpa using hle)]
  simp

/-- Drain step on an empty heap. -/
lemma drainHeap_pop_none {E : Type} (impl : EventImpl E) (now : Nat) (heap : List E)
    (h : popMin impl.execution_time heap = none) :
    drainHeap impl now heap = (heap, []) := by
  rw [drainHeap.eq_def]
  split
  · rfl
  · simp_all

/-- Drain step popping a due entry. -/
lemma drainHeap_pop_le {E : Type} (impl : EventImpl E) (now : Nat) (heap : List E)
    (e : E) (rest : List E) (h : popMin impl.execution_time heap = some (e, rest))
    (hle : impl.execution_time e ≤ now) :
    drainHeap impl now heap =
      ((drainHeap impl now (pushNext impl now e rest)).1,
        (⟨impl.name e, impl.execution_time e⟩ : EventNotification) ::
          (drainHeap impl now (pushNext impl now e rest)).2) := by
  rw [drainHeap.eq_def]
  split
  · simp_all
  · rename_i e' rest' heq
    rw [h] at heq
    simp only [Option.some.injEq, Prod.mk.injEq] at heq
    obtain ⟨he, hr⟩ := heq
    subst he; subst hr
    rw [dif_pos hle]

/-- Drain step stopping at a future entry. -/
lemma drainHeap_pop_gt {E : Type} (impl : EventImpl E) (now : Nat) (heap : List E)
    (e : E) (rest : List E) (h : popMin impl.execution_time heap = some (e, rest))
    (hgt : ¬ impl.execution_time e ≤ now) :
    drainHeap impl now heap = (heap, []) := by
  rw [drainHeap.eq_def]
  split
  · rfl
  · rename_i e' rest' heq
    rw [h] at heq
    simp only [Option.some.injEq, Prod.mk.injEq] at heq
    obtain ⟨he, hr⟩ := heq
    subst he; subst hr
    rw [dif_neg hgt]

/-- C3: in a single drain with `now` read once at the start, the emitted
notifications are exactly one per heap entry whose execution time is at
most `now`, each carrying that entry's name and execution time (so no
logical occurrence fires twice), and the final heap holds exactly the
entries that were not yet due plus, for each popped entry, its
`next_time()` recurrence when and only when that recurrence's execution
time is strictly after `now`. -/
theorem drainHeap_spec {E : Type} (impl : EventImpl E) (now : Nat) (heap : List E) :
    (drainHeap impl now heap).2.Perm
      ((heap.filter fun x => impl.execution_time x ≤ now).map
        fun x => (⟨impl.name x, impl.execution_time x⟩ : EventNotification)) ∧
    (drainHeap impl now heap).1.Perm
      ((heap.filter fun x => now < impl.execution_time x) ++
        (((heap.filter fun x => impl.execution_time x ≤ now).map impl.next_time).filter
          fun x => now < impl.execution_time x)) := by
  have key : ∀ (n : Nat) (hp : List E),
      (hp.filter fun x => impl.execution_time x ≤ now).length = n →
      (drainHeap impl now hp).2.Perm
        ((hp.filter fun x => impl.execution_time x ≤ now).map
          fun x => (⟨impl.name x, impl.execution_time x⟩ : EventNotification)) ∧
      (drainHeap impl now hp).1.Perm
        ((hp.filter fun x => now < impl.execution_time x) ++
          (((hp.filter fun x => impl.execution_time x ≤ now).map impl.next_time).filter
            fun x => now < impl.execution_time x)) := by
    intro n
    induction n using Nat.strong_induction_on with
    | _ n ih =>
      intro hp hn
      cases hpop : popMin impl.execution_time hp with
      | none =>
        have hnil : hp = [] := eq_nil_of_popMin_eq_none _ _ hpop
        subst hnil
        rw [drainHeap_pop_none _ _ _ hpop]
        simp
      | some pr =>
        obtain ⟨e, rest⟩ := pr
        have hperm : hp.Perm (e :: rest) := popMin_perm _ _ _ _ hpop
        by_cases hle : impl.execution_time e ≤ now
        · rw [drainHeap_pop_le _ _ _ _ _ hpop hle]
          have hfp : (hp.filter fun x => impl.execution_time x ≤ now).Perm
              (e :: rest.filter fun x => impl.execution_time x ≤ now) := by
            have hh := hperm.filter (fun x => decide (impl.execution_time x ≤ now))
            rwa [List.filter_cons_of_pos (by simpa using hle)] at hh
          have hlt : ((pushNext impl now e rest).filter
              fun x => impl.execution_time x ≤ now).length < n := by
            rw [filter_pushNext, ← hn, hfp.length_eq]
            simp
          obtain ⟨IH1, IH2⟩ := ih _ hlt (pushNext impl now e rest) rfl
          constructor
          · refine List.Perm.trans ?_ ((hfp.map _).symm)
            rw [List.map_cons]
            refine List.Perm.cons _ ?_
            rw [filter_pushNext] at IH1
            exact IH1
          · have hfq : (hp.filter fun x => now < impl.execution_time x).Perm
                (rest.filter fun x => now < impl.execution_time x) := by
              have hh := hperm.filter (fun x => decide (now < impl.execution_time x))
              rwa [List.filter_cons_of_neg
                (by simp only [decide_eq_true_eq]; omega)] at hh
            have hmapnext : ((hp.filter fun x => impl.execution_time x ≤ now).map
                impl.next_time).Perm
                (impl.next_time e ::
                  (rest.filter fun x => impl.execution_time x ≤ now).map impl.next_time) := by
              simpa using hfp.map impl.next_time
            have hfqmap := hmapnext.filter (fun x => decide (now < impl.execution_time x))
            rw [filter_pushNext] at IH2
            by_cases hpush : now < impl.execution_time (impl.next_time e)
            · rw [List.filter_cons_of_pos (by simpa using hpush)] at hfqmap
              have hpne : pushNext impl now e rest = impl.next_time e :: rest := by
                unfold pushNext
                rw [if_pos hpush]
              rw [hpne, List.filter_cons_of_pos (by simpa using hpush)] at IH2
              rw [hpne]
              refine IH2.trans ?_
              refine List.Perm.trans ?_ ((hfq.symm).append hfqmap.symm)
              simpa using List.perm_middle.symm
            · rw [List.filter_cons_of_neg (by simpa using hpush)] at hfqmap
              have hpne : pushNext impl now e rest = rest := by
                unfold pushNext
                rw [if_neg hpush]
              rw [hpne] at IH2
              rw [hpne]
              exact IH2.trans ((hfq.symm).append hfqmap.symm)
        · rw [drainHeap_pop_gt _ _ _ _ _ hpop hle]
          have hmin := popMin_min _ _ _ _ hpop
          have hfpnil : (hp.filter fun x => impl.execution_time x ≤ now) = [] := by
            apply List.filter_eq_nil_iff.mpr
            intro a ha
            simp only [decide_eq_true_eq]
            have := hmin a ha
            omega
          have hfqself : (hp.filter fun x => now < impl.execution_time x) = hp := by
            apply List.filter_eq_self.mpr
            intro a ha
            simp only [decide_eq_true_eq]
            have := hmin a ha
            omega
          constructor
          · simp [hfpnil]
          · simp [hfpnil, hfqself]
  exact key _ heap rfl

/-- The `Cancel { name }` branch of `Scheduler::run`:
`events.retain(|Reverse(evt)| evt.name() != name)` — keep exactly the
entries whose name differs from the cancelled name. -/
def cancelEvent {E : Type} (impl : EventImpl E) (nm : String) (heap : List E) : List E :=
  heap.filter fun e => impl.name e ≠ nm

/-- Cancelling a name that occurs exactly once among uniquely-named heap
entries removes exactly one entry. -/
lemma length_cancelEvent_of_unique {E : Type} (impl : EventImpl E) (x : String) (es : List E)
    (hnd : (es.map impl.name).Nodup) (hx : x ∈ es.map impl.name) :
    (cancelEvent impl x es).length = es.length - 1 := by
  induction es with
  | nil => simp at hx
  | cons a as ih =>
    simp only [List.map_cons, List.nodup_cons] at hnd
    obtain ⟨hna, hndas⟩ := hnd
    by_cases hax : impl.name a = x
    · have hdrop : cancelEvent impl x (a :: as) = cancelEvent impl x as := by
        unfold cancelEvent
        rw [List.filter_cons_of_neg (by simp [hax])]
      have hself : cancelEvent impl x as = as := by
        unfold cancelEvent
        apply List.filter_eq_self.mpr
        intro e he
        simp only [ne_eq, decide_not, Bool.not_eq_eq_eq_not, Bool.not_true,
          decide_eq_false_iff_not]
        intro hex
        have hmm : impl.name a ∈ List.map impl.name as := by
          rw [hax, ← hex]
          exact List.mem_map_of_mem impl.name he
        exact hna hmm
      rw [hdrop, hself]
      simp
    · have hkeep : cancelEvent impl x (a :: as) = a :: cancelEvent impl x as := by
        unfold cancelEvent
        rw [List.filter_cons_of_pos (by simp [hax])]
      have hxas : x ∈ as.map impl.name := by
        rcases List.mem_cons.mp hx with hx1 | hx2
        · exact absurd hx1.symm hax
        · exact hx2
      have hpos : 0 < as.length := by
        have h0 := List.length_pos_of_mem hxas
        simpa using h0
      rw [hkeep]
      simp only [List.length_cons, ih hndas hxas]
      omega

/-- C4: processing `Cancel(name)` keeps a heap entry exactly when its
name differs from the cancelled name (exact string match), preserves the
surviving entries in place (the result is a sublist), and — for a heap
of `N` uniquely-named scheduled events and `M` distinct matching
cancels — leaves exactly `N - M` entries. -/
theorem cancel_removes_exactly_matching {E : Type} (impl : EventImpl E) (nm : String)
    (heap : List E) (es : List E) (ns : List String) :
    (∀ e, e ∈ cancelEvent impl nm heap ↔ (e ∈ heap ∧ impl.name e ≠ nm)) ∧
    (cancelEvent impl nm heap).Sublist heap ∧
    ((es.map impl.name).Nodup → ns.Nodup → (∀ x ∈ ns, x ∈ es.map impl.name) →
      (ns.foldl (fun h x => cancelEvent impl x h) es).length = es.length - ns.length) := by
  refine ⟨fun e => ?_, List.filter_sublist heap, ?_⟩
  · unfold cancelEvent
    simp [List.mem_filter]
  · induction ns generalizing es with
    | nil =>
      intro _ _ _
      simp
    | cons x ns' ih =>
      intro hnd hnsd hmem
      simp only [List.nodup_cons] at hnsd
      obtain ⟨hxns, hns'd⟩ := hnsd
      have hx : x ∈ es.map impl.name := hmem x (List.mem_cons_self x ns')
      have h1 : (cancelEvent impl x es).length = es.length - 1 :=
        length_cancelEvent_of_unique impl x es hnd hx
      have h2 : ((cancelEvent impl x es).map impl.name).Nodup :=
        hnd.sublist (List.Sublist.map impl.name (List.filter_sublist es))
      have h3 : ∀ y ∈ ns', y ∈ (cancelEvent impl x es).map impl.name := by
        intro y hy
        have hyx : y ≠ x := fun hyx => hxns (hyx ▸ hy)
        obtain ⟨e, he, hey⟩ := List.mem_map.mp (hmem y (List.mem_cons_of_mem x hy))
        rw [← hey]
        apply List.mem_map_of_mem
        unfold cancelEvent
        apply List.mem_filter.mpr
        refine ⟨he, ?_⟩
        simp only [ne_eq, decide_not, Bool.not_eq_eq_eq_not, Bool.not_true,
          decide_eq_false_iff_not]
        intro hex
        exact hyx (by rw [← hey, hex])
      have hfold : ((x :: ns').foldl (fun h x => cancelEvent impl x h) es) =
          (ns'.foldl (fun h x => cancelEvent impl x h) (cancelEvent impl x es)) := rfl
      rw [hfold, ih (cancelEvent impl x es) h2 hns'd h3, h1]
      simp only [List.length_cons]
      omega

/-- A concrete event type for witnesses: the event is its own name, is
always due at time 0, and recurs as itself. -/
def stringEventImpl : EventImpl String :=
  { name := fun s => s, execution_time := fun _ => 0, next_time := fun s => s }

/-- C4 witness: from three uniquely-named scheduled events, one matching
cancel leaves exactly two entries. -/
theorem cancel_removes_exactly_matching_witness :
    (["b"].foldl (fun h x => cancelEvent stringEventImpl x h) ["a", "b", "c"]).length =
      ["a", "b", "c"].length - ["b"].length :=
  (cancel_removes_exactly_matching stringEventImpl "b" [] ["a", "b", "c"] ["b"]).2.2
    (by decide) (by decide) (by decide)
